import Mathlib

set_option maxRecDepth 8000

/-!
Verification of the container-backup utility (src/main.py).

The program is embedded shallowly: strings are lists of characters,
external subprocess invocations become explicit outcome values, and the
interactive selection loop consumes an explicit list of stdin lines.
The two regex operations of the source are modelled by executable
functions whose semantics follow the Python `re` module:

* `re.sub(DOCKER_CONTAINER_PATTERN, "", output)` scans left to right,
  at each position trying the seven literal alternatives in order
  (none is a prefix of another, so the order is immaterial), deleting
  a match and resuming after it, otherwise keeping the character.
* `re.findall(r"[^ ]*$", s, re.MULTILINE)` scans left to right.  At a
  position, `[^ ]*` greedily takes the maximal run of non-space
  characters (newlines and tabs included) and backtracks to the largest
  end position that is either the end of the string or immediately
  before a newline (`$` under MULTILINE).  A successful match is
  recorded and scanning resumes at its end; an empty match additionally
  advances one character; a failed attempt advances one character.
-/

/-- ASCII whitespace characters removed by Python `str.strip()`. -/
def isPyWs (c : Char) : Bool :=
  c == ' ' || c == '\t' || c == '\n' || c == '\r' || c == '\x0B' || c == '\x0C'

/-- Python `str.strip()`: drop leading and trailing whitespace. -/
def pyStrip (l : List Char) : List Char :=
  ((l.dropWhile isPyWs).reverse.dropWhile isPyWs).reverse

/-- The character class `[^ ]` of the findall pattern: anything but a space. -/
def nonSpace (c : Char) : Bool := c != ' '

/-- Split a list at its last newline: `lastSplit l = some (a, b)` when
`l = a ++ [newline] ++ b` with no newline in `b`; `none` when `l` has no
newline. -/
def lastSplit : List Char → Option (List Char × List Char)
  | [] => none
  | c :: cs =>
    match lastSplit cs with
    | some (a, b) => some (c :: a, b)
    | none => if c = '\n' then some ([], cs) else none

/-- One regex-engine scan of `re.findall(r"[^ ]*$", s, re.MULTILINE)`,
fuelled (the fuel only bounds the recursion; `findall` supplies enough).
At the current suffix `l`: the greedy run is `l.takeWhile nonSpace`.
If the run reaches the end of the string the whole run matches (the
final `$`); otherwise the match ends at the last newline inside the run,
and the attempt fails when there is none.  After a non-empty match the
scan resumes at the match end; after an empty match or a failure it
advances one character. -/
def findallFuel : Nat → List Char → List (List Char)
  | 0, _ => []
  | f + 1, l =>
    match l.dropWhile nonSpace with
    | [] =>
      match l.takeWhile nonSpace with
      | [] => [[]]
      | c :: r => (c :: r) :: findallFuel f []
    | _ :: _ =>
      match lastSplit (l.takeWhile nonSpace) with
      | some (a, b) =>
        match a with
        | [] => [] :: findallFuel f (b ++ l.dropWhile nonSpace)
        | _ :: _ => a :: findallFuel f ('\n' :: (b ++ l.dropWhile nonSpace))
      | none =>
        match l with
        | [] => []
        | _ :: tl => findallFuel f tl

/-- `re.findall(r"[^ ]*$", l, re.MULTILINE)`. -/
def findall (l : List Char) : List (List Char) := findallFuel (l.length + 1) l

/-- The seven literal alternatives of `DOCKER_CONTAINER_PATTERN`
(`CONTAINER ID|IMAGE|COMMAND|CREATED|STATUS|PORTS|NAMES`). -/
def DOCKER_CONTAINER_PATTERN : List (List Char) :=
  [['C', 'O', 'N', 'T', 'A', 'I', 'N', 'E', 'R', ' ', 'I', 'D'],
   ['I', 'M', 'A', 'G', 'E'],
   ['C', 'O', 'M', 'M', 'A', 'N', 'D'],
   ['C', 'R', 'E', 'A', 'T', 'E', 'D'],
   ['S', 'T', 'A', 'T', 'U', 'S'],
   ['P', 'O', 'R', 'T', 'S'],
   ['N', 'A', 'M', 'E', 'S']]

/-- Match the literal `p` at the front of `l`: the remainder of `l`
after `p` when `p` is a prefix of `l`, otherwise `none`. -/
def stripPre : List Char → List Char → Option (List Char)
  | [], l => some l
  | _ :: _, [] => none
  | p :: ps, c :: cs => if p = c then stripPre ps cs else none

/-- Attempt of the regex alternation `DOCKER_CONTAINER_PATTERN` at the
front of `l`: the seven literals are tried in pattern order and the
remainder after the first one that is a prefix of `l` is returned.  No
alternative is a prefix of another, so the first-match rule is
unambiguous. -/
def matchHeader (l : List Char) : Option (List Char) :=
  DOCKER_CONTAINER_PATTERN.findSome? (fun p => stripPre p l)

/-- Fuelled scan of `re.sub(DOCKER_CONTAINER_PATTERN, "", output)`:
delete every (leftmost, non-overlapping) occurrence of an alternative,
keep every other character. -/
def reSubFuel : Nat → List Char → List Char
  | 0, _ => []
  | f + 1, l =>
    match l with
    | [] => []
    | c :: cs =>
      match matchHeader (c :: cs) with
      | some rest => reSubFuel f rest
      | none => c :: reSubFuel f cs

/-- `re.sub(DOCKER_CONTAINER_PATTERN, "", l)` (before the strip). -/
def reSubHeaders (l : List Char) : List Char := reSubFuel l.length l

/-- `remove_docker_listing_headers` from src/main.py: regex substitution
of the header alternatives followed by `str.strip()`. -/
def remove_docker_listing_headers (output : List Char) : List Char :=
  pyStrip (reSubHeaders output)

/-- `get_container_names` from src/main.py: findall of `[^ ]*$` in
MULTILINE mode, keeping the non-empty results. -/
def get_container_names (docker_ps_output : List Char) : List (List Char) :=
  (findall docker_ps_output).filter (fun name => !name.isEmpty)

/-- The complete listing parser, as composed in `get_docker_containers`:
strip the headers, then extract the last columns. -/
def parse (raw : List Char) : List (List Char) :=
  get_container_names (remove_docker_listing_headers raw)

/-- The outcome of one `subprocess.run` invocation, as far as the
program observes it: either the process completed with a return code, or
the executable could not be located (`FileNotFoundError`). -/
inductive SubprocessOutcome
  | completed (returncode : Int)
  | fileNotFound
deriving DecidableEq

/-- The `DockerState` enum of src/main.py. -/
inductive DockerState
  | RUNNING
  | NOT_RUNNING
  | NOT_INSTALLED
deriving DecidableEq

/-- `get_docker_status` from src/main.py, as a function of the single
outcome of the one `docker info` invocation it performs: return code 0
gives RUNNING, any other return code gives NOT_RUNNING, and a missing
executable gives NOT_INSTALLED. -/
def get_docker_status (r : SubprocessOutcome) : DockerState :=
  match r with
  | .completed returncode => if returncode = 0 then .RUNNING else .NOT_RUNNING
  | .fileNotFound => .NOT_INSTALLED

/-- Numeric value of an ASCII digit run. -/
def digitsVal (l : List Char) : Nat :=
  l.foldl (fun a c => 10 * a + (c.toNat - 48)) 0

/-- Python `int(s)` on the strings relevant here: surrounding
whitespace is stripped, an optional sign precedes a non-empty run of
ASCII digits; anything else raises ValueError (modelled as `none`). -/
def pyInt (s : List Char) : Option Int :=
  match pyStrip s with
  | '-' :: ds => if !ds.isEmpty && ds.all Char.isDigit then some (-(digitsVal ds : Int)) else none
  | '+' :: ds => if !ds.isEmpty && ds.all Char.isDigit then some (digitsVal ds : Int) else none
  | ds => if !ds.isEmpty && ds.all Char.isDigit then some (digitsVal ds : Int) else none

/-- Result of the `select_container` loop: the user cancelled with 0,
or a container was selected, or the supplied stdin script was
exhausted while the loop was still prompting. -/
inductive SelectOutcome
  | cancelled
  | selected (name : List Char)
  | noMoreInput
deriving DecidableEq

/-- `select_container` from src/main.py, consuming an explicit list of
stdin lines.  Each iteration reads one line; `int(...)` failure
(ValueError) and out-of-range numbers re-enter the loop; `0` cancels
(sys.exit(0)); an in-range number returns the 1-based selection. -/
def select_container (containers : List (List Char)) : List (List Char) → SelectOutcome
  | [] => .noMoreInput
  | input :: rest =>
    match pyInt input with
    | none => select_container containers rest
    | some n =>
      let selection := n - 1
      if selection = -1 then .cancelled
      else if h : 0 ≤ selection ∧ selection < (containers.length : Int) then
        .selected (containers.get ⟨selection.toNat, by omega⟩)
      else select_container containers rest

/-- The environment of one program run: the outcomes of the external
commands and the scripted stdin lines. -/
structure Env where
  docker_info : SubprocessOutcome
  docker_ps : SubprocessOutcome
  ps_stdout : List Char
  inputs : List (List Char)
  backup : SubprocessOutcome
deriving DecidableEq

/-- Observable result of a run: the process exit code together with
whether the backup command was invoked, or `blocked` when the run
consumed the whole stdin script while still prompting. -/
inductive ProgResult
  | exited (code : Nat) (backupInvoked : Bool)
  | blocked
deriving DecidableEq

/-- The containers the program computes from the listing output, as in
`get_docker_containers`. -/
def psContainers (env : Env) : List (List Char) :=
  get_container_names (remove_docker_listing_headers env.ps_stdout)

/-- `main` from src/main.py over an explicit environment.  It chains:
`get_docker_status` and `handle_docker_status` (exit 1 unless RUNNING),
`get_docker_containers` (exit 1 on a failing or missing listing
command), the empty-listing check (exit 1), `select_container`
(exit 0 on cancel), and `take_backup` (exit 1 on a failing or missing
backup command, normal return - exit code 0 - on success). -/
def mainRun (env : Env) : ProgResult :=
  match get_docker_status env.docker_info with
  | .NOT_INSTALLED => .exited 1 false
  | .NOT_RUNNING => .exited 1 false
  | .RUNNING =>
    match env.docker_ps with
    | .fileNotFound => .exited 1 false
    | .completed c =>
      if c ≠ 0 then .exited 1 false
      else
        let containers := psContainers env
        if containers.length = 0 then .exited 1 false
        else
          match select_container containers env.inputs with
          | .noMoreInput => .blocked
          | .cancelled => .exited 0 false
          | .selected _ =>
            match env.backup with
            | .fileNotFound => .exited 1 true
            | .completed b => if b = 0 then .exited 0 true else .exited 1 true

/-- The exit code of a run, when it terminates. -/
def mainExitCode (env : Env) : Option Nat :=
  match mainRun env with
  | .exited code _ => some code
  | .blocked => none

/-- The run reaches the interactive prompt: the daemon-info probe gave
RUNNING, the listing command succeeded, and the parsed listing is
non-empty. -/
def ReachesPrompt (env : Env) : Prop :=
  get_docker_status env.docker_info = DockerState.RUNNING ∧
  env.docker_ps = SubprocessOutcome.completed 0 ∧
  psContainers env ≠ []

/-- Spec-side predicate: the run ends in a successful backup. -/
def SuccessfulBackup (env : Env) : Prop :=
  ReachesPrompt env ∧
  (∃ name, select_container (psContainers env) env.inputs = SelectOutcome.selected name) ∧
  env.backup = SubprocessOutcome.completed 0

/-- Spec-side predicate: the user cancels at the prompt. -/
def UserCancelled (env : Env) : Prop :=
  ReachesPrompt env ∧
  select_container (psContainers env) env.inputs = SelectOutcome.cancelled

/-- Spec-side predicate: one of the fatal errors of the error taxonomy
(daemon not installed, daemon not running, listing failure, empty
listing, backup failure). -/
def FatalError (env : Env) : Prop :=
  get_docker_status env.docker_info = DockerState.NOT_INSTALLED ∨
  get_docker_status env.docker_info = DockerState.NOT_RUNNING ∨
  (get_docker_status env.docker_info = DockerState.RUNNING ∧
    (env.docker_ps = SubprocessOutcome.fileNotFound ∨
      ∃ c, c ≠ 0 ∧ env.docker_ps = SubprocessOutcome.completed c)) ∨
  (get_docker_status env.docker_info = DockerState.RUNNING ∧
    env.docker_ps = SubprocessOutcome.completed 0 ∧ psContainers env = []) ∨
  (ReachesPrompt env ∧
    (∃ name, select_container (psContainers env) env.inputs = SelectOutcome.selected name) ∧
    (env.backup = SubprocessOutcome.fileNotFound ∨
      ∃ b, b ≠ 0 ∧ env.backup = SubprocessOutcome.completed b))

/-- A listing line given as a pair of an arbitrary prefix and a final
token, rendered with the single space that separates them. -/
def lineText (pt : List Char × List Char) : List Char := pt.1 ++ ' ' :: pt.2

/-- Several such lines joined by newlines. -/
def linesText : List (List Char × List Char) → List Char
  | [] => []
  | [pt] => lineText pt
  | pt :: pt2 :: rest => lineText pt ++ '\n' :: linesText (pt2 :: rest)

/-- The text after a line: nothing, or a newline and the remaining lines. -/
def tailText : List (List Char × List Char) → List Char
  | [] => []
  | pt :: rest => '\n' :: linesText (pt :: rest)

/-- A well-formed line for the last-column property: the prefix holds no
newline (it is one line) and the token is a non-empty run of
non-whitespace characters. -/
def GoodLine (pt : List Char × List Char) : Prop :=
  '\n' ∉ pt.1 ∧ pt.2 ≠ [] ∧ ∀ c ∈ pt.2, isPyWs c = false

instance : DecidablePred GoodLine := fun pt =>
  decidable_of_iff ('\n' ∉ pt.1 ∧ pt.2 ≠ [] ∧ ∀ c ∈ pt.2, isPyWs c = false) Iff.rfl

/-! Helper lemmas about the parser model. -/

theorem lastSplit_none : ∀ l : List Char, lastSplit l = none ↔ '\n' ∉ l := by
  intro l
  induction l with
  | nil => simp [lastSplit]
  | cons c cs ih =>
    simp only [lastSplit]
    cases hcs : lastSplit cs with
    | some ab =>
      have hcs2 : '\n' ∈ cs := by
        by_contra hn
        rw [ih.mpr hn] at hcs
        cases hcs
      simp [hcs2]
    | none =>
      have hn : '\n' ∉ cs := ih.mp hcs
      by_cases hc : c = '\n'
      · subst hc; simp
      · simp [hc, hn, Ne.symm hc]

theorem lastSplit_some : ∀ (l a b : List Char), lastSplit l = some (a, b) →
    l = a ++ '\n' :: b ∧ '\n' ∉ b := by
  intro l
  induction l with
  | nil => intro a b h; cases h
  | cons c cs ih =>
    intro a b h
    simp only [lastSplit] at h
    cases hcs : lastSplit cs with
    | some ab =>
      obtain ⟨a', b'⟩ := ab
      rw [hcs] at h
      simp only [Option.some.injEq, Prod.mk.injEq] at h
      obtain ⟨h1, h2⟩ := h
      obtain ⟨he, hb⟩ := ih a' b' hcs
      subst he
      rw [← h1, ← h2]
      exact ⟨rfl, hb⟩
    | none =>
      rw [hcs] at h
      change (if c = '\n' then some ([], cs) else none) = some (a, b) at h
      split at h
      · next hc =>
          simp only [Option.some.injEq, Prod.mk.injEq] at h
          obtain ⟨h1, h2⟩ := h
          subst hc
          rw [← h1, ← h2]
          exact ⟨rfl, (lastSplit_none cs).mp hcs⟩
      · cases h

theorem lastSplit_last_nl : ∀ (a b : List Char), '\n' ∉ b →
    lastSplit (a ++ '\n' :: b) = some (a, b) := by
  intro a b hb
  induction a with
  | nil =>
    simp only [List.nil_append, lastSplit]
    rw [(lastSplit_none b).mpr hb]
    simp
  | cons c a' ih =>
    rw [List.cons_append, lastSplit, ih]

theorem stripPre_some : ∀ (p l r : List Char), stripPre p l = some r → l = p ++ r := by
  intro p
  induction p with
  | nil => intro l r h; cases h; rfl
  | cons x ps ih =>
    intro l r h
    cases l with
    | nil => cases h
    | cons c cs =>
      simp only [stripPre] at h
      by_cases hx : x = c
      · rw [if_pos hx] at h
        rw [ih cs r h, hx]
        rfl
      · rw [if_neg hx] at h
        cases h

theorem findSome?_some_mem : ∀ (xs : List (List Char)) (f : List Char → Option (List Char))
    (b : List Char), xs.findSome? f = some b → ∃ a ∈ xs, f a = some b := by
  intro xs f b
  induction xs with
  | nil => intro h; cases h
  | cons x xs ih =>
    intro h
    rw [List.findSome?_cons] at h
    split at h
    · next v hx => exact ⟨x, by simp, by rw [hx, h]⟩
    · next hx =>
        obtain ⟨a, ha, hfa⟩ := ih h
        exact ⟨a, by simp [ha], hfa⟩

theorem matchHeader_some : ∀ (l r : List Char), matchHeader l = some r →
    ∃ p ∈ DOCKER_CONTAINER_PATTERN, l = p ++ r := by
  intro l r h
  obtain ⟨p, hp, hs⟩ := findSome?_some_mem _ _ _ h
  exact ⟨p, hp, stripPre_some p l r hs⟩

theorem matchHeader_header : ∀ p ∈ DOCKER_CONTAINER_PATTERN, ∀ r : List Char,
    matchHeader (p ++ r) = some r := by
  intro p hp r
  fin_cases hp <;> rfl

theorem isPyWs_cases : ∀ c : Char, isPyWs c = true →
    c = ' ' ∨ c = '\t' ∨ c = '\n' ∨ c = '\r' ∨ c = '\x0B' ∨ c = '\x0C' := by
  intro c hc
  simp only [isPyWs, Bool.or_eq_true, beq_iff_eq] at hc
  tauto

theorem matchHeader_ws : ∀ (c : Char) (l : List Char), isPyWs c = true →
    matchHeader (c :: l) = none := by
  intro c l hc
  rcases isPyWs_cases c hc with rfl | rfl | rfl | rfl | rfl | rfl <;> rfl

theorem pattern_ne_nil : ∀ p ∈ DOCKER_CONTAINER_PATTERN, p ≠ [] := by decide

theorem reSubFuel_stable : ∀ (f : Nat) (l : List Char), l.length ≤ f →
    reSubFuel f l = reSubHeaders l := by
  intro f
  induction f using Nat.strong_induction_on with
  | _ f ih =>
    intro l hl
    match f, l with
    | f, [] => cases f <;> rfl
    | f + 1, c :: cs =>
      have hcs : cs.length ≤ f := by
        simp only [List.length_cons] at hl
        omega
      show reSubFuel (f + 1) (c :: cs) = reSubFuel (cs.length + 1) (c :: cs)
      simp only [reSubFuel]
      cases hm : matchHeader (c :: cs) with
      | none =>
        show c :: reSubFuel f cs = c :: reSubFuel cs.length cs
        rw [ih f (by omega) cs hcs]
        rfl
      | some rest =>
        show reSubFuel f rest = reSubFuel cs.length rest
        obtain ⟨p, hp, he⟩ := matchHeader_some _ _ hm
        have hp1 : 0 < p.length := List.length_pos.mpr (pattern_ne_nil p hp)
        have hlen : rest.length ≤ cs.length := by
          have h3 := congrArg List.length he
          simp only [List.length_cons, List.length_append] at h3
          omega
        rw [ih f (by omega) rest (by omega), ih cs.length (by omega) rest hlen]

theorem reSubHeaders_id : ∀ l : List Char,
    (∀ p ∈ DOCKER_CONTAINER_PATTERN, ¬ p <:+: l) → reSubHeaders l = l := by
  intro l
  induction l with
  | nil => intro _; rfl
  | cons c cs ih =>
    intro hno
    show reSubFuel (cs.length + 1) (c :: cs) = c :: cs
    simp only [reSubFuel]
    cases hm : matchHeader (c :: cs) with
    | some rest =>
      obtain ⟨p, hp, he⟩ := matchHeader_some _ _ hm
      exact absurd (List.IsPrefix.isInfix ⟨rest, he.symm⟩) (hno p hp)
    | none =>
      show c :: reSubFuel cs.length cs = c :: cs
      rw [show reSubFuel cs.length cs = reSubHeaders cs from rfl,
        ih (fun p hp hi => hno p hp (List.infix_cons hi))]

theorem reSubHeaders_header : ∀ p ∈ DOCKER_CONTAINER_PATTERN, ∀ r : List Char,
    reSubHeaders (p ++ r) = reSubHeaders r := by
  intro p hp r
  have hsome := matchHeader_header p hp r
  cases hpe : p with
  | nil => exact absurd hpe (pattern_ne_nil p hp)
  | cons c ps =>
    subst hpe
    show reSubFuel ((c :: ps ++ r).length) (c :: ps ++ r) = reSubHeaders r
    simp only [List.cons_append, List.length_cons, List.length_append]
    simp only [reSubFuel]
    rw [← List.cons_append, hsome]
    exact reSubFuel_stable _ _ (by omega)

theorem reSubHeaders_ws_cons : ∀ (c : Char) (l : List Char), isPyWs c = true →
    reSubHeaders (c :: l) = c :: reSubHeaders l := by
  intro c l hc
  show reSubFuel (l.length + 1) (c :: l) = c :: reSubHeaders l
  simp only [reSubFuel]
  rw [matchHeader_ws c l hc]
  rfl

theorem reSubHeaders_ws_run : ∀ (w rest : List Char), (∀ c ∈ w, isPyWs c = true) →
    reSubHeaders (w ++ rest) = w ++ reSubHeaders rest := by
  intro w rest hw
  induction w with
  | nil => rfl
  | cons c w ih =>
    rw [List.cons_append, reSubHeaders_ws_cons c _ (hw c (by simp)),
      ih (fun d hd => hw d (by simp [hd])), List.cons_append]

theorem reSubHeaders_segments : ∀ segs : List (List Char),
    (∀ x ∈ segs, x ∈ DOCKER_CONTAINER_PATTERN ∨ ∀ c ∈ x, isPyWs c = true) →
    ∀ d ∈ reSubHeaders segs.flatten, isPyWs d = true := by
  intro segs
  induction segs with
  | nil => intro _ d hd; cases hd
  | cons x segs ih =>
    intro hseg d hd
    rw [List.flatten_cons] at hd
    rcases hseg x (by simp) with hx | hx
    · rw [reSubHeaders_header x hx _] at hd
      exact ih (fun y hy => hseg y (by simp [hy])) d hd
    · rw [reSubHeaders_ws_run x _ hx, List.mem_append] at hd
      rcases hd with hd | hd
      · exact hx d hd
      · exact ih (fun y hy => hseg y (by simp [hy])) d hd

theorem pyStrip_all_ws : ∀ l : List Char, (∀ c ∈ l, isPyWs c = true) → pyStrip l = [] := by
  intro l h
  unfold pyStrip
  rw [List.dropWhile_eq_nil_iff.mpr h]
  rfl

theorem takeWhile_append_all : ∀ (p : Char → Bool) (a b : List Char),
    (∀ c ∈ a, p c = true) → (a ++ b).takeWhile p = a ++ b.takeWhile p := by
  intro p a b h
  induction a with
  | nil => rfl
  | cons c a ih =>
    rw [List.cons_append, List.takeWhile_cons, if_pos (h c (by simp)),
      ih (fun d hd => h d (by simp [hd]))]
    rfl

theorem dropWhile_append_all : ∀ (p : Char → Bool) (a b : List Char),
    (∀ c ∈ a, p c = true) → (a ++ b).dropWhile p = b.dropWhile p := by
  intro p a b h
  induction a with
  | nil => rfl
  | cons c a ih =>
    rw [List.cons_append, List.dropWhile_cons, if_pos (h c (by simp))]
    exact ih (fun d hd => h d (by simp [hd]))

theorem takeWhile_append_stop : ∀ (p : Char → Bool) (x : Char) (a b : List Char),
    p x = false → (a ++ x :: b).takeWhile p = a.takeWhile p := by
  intro p x a b h
  induction a with
  | nil =>
    rw [List.nil_append, List.takeWhile_cons, if_neg (by simp [h])]
    rfl
  | cons c a ih =>
    rw [List.cons_append, List.takeWhile_cons, List.takeWhile_cons]
    by_cases hc : p c = true
    · rw [if_pos hc, if_pos hc, ih]
    · rw [if_neg hc, if_neg hc]

theorem dropWhile_append_stop : ∀ (p : Char → Bool) (x : Char) (a b : List Char),
    p x = false → (a ++ x :: b).dropWhile p = a.dropWhile p ++ x :: b := by
  intro p x a b h
  induction a with
  | nil =>
    rw [List.nil_append, List.dropWhile_cons, if_neg (by simp [h])]
    rfl
  | cons c a ih =>
    rw [List.cons_append, List.dropWhile_cons, List.dropWhile_cons]
    by_cases hc : p c = true
    · rw [if_pos hc, if_pos hc, ih]
    · rw [if_neg hc, if_neg hc, List.cons_append]

theorem findallFuel_stable : ∀ (f : Nat) (l : List Char), l.length < f →
    findallFuel f l = findall l := by
  intro f
  induction f using Nat.strong_induction_on with
  | _ f ih =>
    intro l hl
    match f with
    | f + 1 =>
      show findallFuel (f + 1) l = findallFuel (l.length + 1) l
      simp only [findallFuel]
      cases hd : l.dropWhile nonSpace with
      | nil =>
        cases ht : l.takeWhile nonSpace with
        | nil => rfl
        | cons c r =>
          have hlpos : 0 < l.length := by
            cases l with
            | nil => cases ht
            | cons _ _ => simp
          show (c :: r) :: findallFuel f [] = (c :: r) :: findallFuel l.length []
          rw [ih f (by omega) [] (by simp; omega), ih l.length (by omega) [] (by simpa using hlpos)]
      | cons d ds =>
        cases hs : lastSplit (l.takeWhile nonSpace) with
        | some ab =>
          obtain ⟨a, b⟩ := ab
          obtain ⟨heq, hnb⟩ := lastSplit_some _ _ _ hs
          have hltot : (a ++ '\n' :: b) ++ d :: ds = l := by
            rw [← heq, ← hd, List.takeWhile_append_dropWhile]
          have hlen : l.length = a.length + b.length + ds.length + 2 := by
            have h3 := congrArg List.length hltot
            simp only [List.length_append, List.length_cons] at h3
            omega
          cases a with
          | nil =>
            have hargl : (b ++ d :: ds).length = b.length + ds.length + 1 := by
              simp only [List.length_append, List.length_cons]
              omega
            show [] :: findallFuel f (b ++ d :: ds) = [] :: findallFuel l.length (b ++ d :: ds)
            rw [ih f (by omega) _ (by omega), ih l.length (by omega) _ (by omega)]
          | cons x a' =>
            have hargl : ('\n' :: (b ++ d :: ds)).length = b.length + ds.length + 2 := by
              simp only [List.length_append, List.length_cons]
              omega
            have halen : a'.length + 1 = (x :: a').length := by simp
            show (x :: a') :: findallFuel f ('\n' :: (b ++ d :: ds)) =
              (x :: a') :: findallFuel l.length ('\n' :: (b ++ d :: ds))
            rw [ih f (by omega) _ (by omega), ih l.length (by omega) _ (by omega)]
        | none =>
          cases l with
          | nil => exact absurd hd (by simp)
          | cons c tl =>
            have htl : tl.length < f := by
              simp only [List.length_cons] at hl
              omega
            show findallFuel f tl = findallFuel (c :: tl).length tl
            rw [ih f (by omega) tl htl, ih (c :: tl).length (by simp only [List.length_cons]; omega) tl (by simp)]

theorem takeWhile_all : ∀ (p : Char → Bool) (l : List Char),
    (∀ c ∈ l, p c = true) → l.takeWhile p = l := by
  intro p l h
  induction l with
  | nil => rfl
  | cons c l ih =>
    rw [List.takeWhile_cons, if_pos (h c (by simp)), ih (fun d hd => h d (by simp [hd]))]

theorem findall_nil : findall [] = [[]] := rfl

theorem findall_token_end : ∀ t : List Char, t ≠ [] → (∀ c ∈ t, c ≠ ' ') →
    findall t = [t, []] := by
  intro t ht hsp
  have htw : t.takeWhile nonSpace = t :=
    takeWhile_all nonSpace t (fun c hc => by simp [nonSpace, hsp c hc])
  have hdw : t.dropWhile nonSpace = [] := by
    rw [List.dropWhile_eq_nil_iff]
    intro x hx
    simp [nonSpace, hsp x hx]
  cases t with
  | nil => exact absurd rfl ht
  | cons c r =>
    show findallFuel ((c :: r).length + 1) (c :: r) = [c :: r, []]
    simp only [findallFuel]
    rw [hdw, htw]
    show (c :: r) :: findallFuel (c :: r).length [] = [c :: r, []]
    rw [findallFuel_stable _ [] (by simp)]
    rfl

theorem findall_nl_cons : ∀ z : List Char, '\n' ∉ z.takeWhile nonSpace →
    z.dropWhile nonSpace ≠ [] → findall ('\n' :: z) = [] :: findall z := by
  intro z h1 h2
  have hts : ('\n' :: z).takeWhile nonSpace = '\n' :: z.takeWhile nonSpace := by
    rw [List.takeWhile_cons, if_pos (by decide)]
  have hds : ('\n' :: z).dropWhile nonSpace = z.dropWhile nonSpace := by
    rw [List.dropWhile_cons, if_pos (by decide)]
  have hls : lastSplit (('\n' :: z).takeWhile nonSpace) = some ([], z.takeWhile nonSpace) := by
    rw [hts]
    exact lastSplit_last_nl [] _ h1
  show findallFuel (('\n' :: z).length + 1) ('\n' :: z) = [] :: findall z
  simp only [findallFuel]
  rw [hds, hls]
  cases hw : z.dropWhile nonSpace with
  | nil => exact absurd hw h2
  | cons w ws =>
    have hz : z.takeWhile nonSpace ++ w :: ws = z := by
      rw [← hw, List.takeWhile_append_dropWhile]
    show [] :: findallFuel ('\n' :: z).length (z.takeWhile nonSpace ++ w :: ws) = [] :: findall z
    rw [hz, findallFuel_stable _ z (by simp)]

theorem findall_token_nl : ∀ (t z : List Char), t ≠ [] →
    (∀ c ∈ t, c ≠ ' ' ∧ c ≠ '\n') →
    '\n' ∉ z.takeWhile nonSpace → z.dropWhile nonSpace ≠ [] →
    findall (t ++ '\n' :: z) = t :: [] :: findall z := by
  intro t z ht hc hz1 hz2
  have htall : ∀ c ∈ t, nonSpace c = true := fun c hc2 => by simp [nonSpace, (hc c hc2).1]
  have hts : (t ++ '\n' :: z).takeWhile nonSpace = t ++ '\n' :: z.takeWhile nonSpace := by
    rw [takeWhile_append_all nonSpace t _ htall, List.takeWhile_cons, if_pos (by decide)]
  have hds : (t ++ '\n' :: z).dropWhile nonSpace = z.dropWhile nonSpace := by
    rw [dropWhile_append_all nonSpace t _ htall, List.dropWhile_cons, if_pos (by decide)]
  have htnl : '\n' ∉ t := fun hmem => (hc '\n' hmem).2 rfl
  have hls : lastSplit ((t ++ '\n' :: z).takeWhile nonSpace) = some (t, z.takeWhile nonSpace) := by
    rw [hts]
    exact lastSplit_last_nl t _ hz1
  show findallFuel ((t ++ '\n' :: z).length + 1) (t ++ '\n' :: z) = t :: [] :: findall z
  simp only [findallFuel]
  rw [hds, hls]
  cases hw : z.dropWhile nonSpace with
  | nil => exact absurd hw hz2
  | cons w ws =>
    have hz : z.takeWhile nonSpace ++ w :: ws = z := by
      rw [← hw, List.takeWhile_append_dropWhile]
    cases t with
    | nil => exact absurd rfl ht
    | cons x t' =>
      show (x :: t') :: findallFuel ((x :: t' ++ '\n' :: z).length)
          ('\n' :: (z.takeWhile nonSpace ++ w :: ws)) = (x :: t') :: [] :: findall z
      rw [hz, findallFuel_stable _ ('\n' :: z)
        (by simp only [List.length_append, List.length_cons]; omega),
        findall_nl_cons z hz1 hz2]

theorem findall_skip : ∀ (a z : List Char), '\n' ∉ a →
    findall (a ++ ' ' :: z) = findall z := by
  intro a
  induction a with
  | nil =>
    intro z _
    show findallFuel ((' ' :: z).length + 1) (' ' :: z) = findall z
    simp only [findallFuel]
    rw [List.dropWhile_cons, if_neg (by decide), List.takeWhile_cons, if_neg (by decide)]
    show findallFuel (' ' :: z).length z = findall z
    exact findallFuel_stable _ z (by simp)
  | cons c a ih =>
    intro z hnl
    have hna : '\n' ∉ a := fun h => hnl (by simp [h])
    have hcn : c ≠ '\n' := fun h => hnl (by simp [h])
    show findallFuel ((c :: (a ++ ' ' :: z)).length + 1) (c :: (a ++ ' ' :: z)) = findall z
    simp only [findallFuel]
    have hts : (c :: (a ++ ' ' :: z)).takeWhile nonSpace = (c :: a).takeWhile nonSpace := by
      rw [← List.cons_append]
      exact takeWhile_append_stop nonSpace ' ' (c :: a) z (by decide)
    have hds : (c :: (a ++ ' ' :: z)).dropWhile nonSpace = (c :: a).dropWhile nonSpace ++ ' ' :: z := by
      rw [← List.cons_append]
      exact dropWhile_append_stop nonSpace ' ' (c :: a) z (by decide)
    have hls : lastSplit ((c :: (a ++ ' ' :: z)).takeWhile nonSpace) = none := by
      rw [hts, lastSplit_none]
      intro hmem
      have hmem2 : '\n' ∈ c :: a := List.Sublist.mem hmem (List.takeWhile_sublist nonSpace)
      rcases List.mem_cons.mp hmem2 with he | he
      · exact hcn he.symm
      · exact hna he
    rw [hds, hls]
    cases hw : (c :: a).dropWhile nonSpace with
    | nil =>
      rw [List.nil_append]
      show findallFuel (c :: (a ++ ' ' :: z)).length (a ++ ' ' :: z) = findall z
      rw [findallFuel_stable _ (a ++ ' ' :: z) (by simp), ih z hna]
    | cons w ws =>
      rw [List.cons_append]
      show findallFuel (c :: (a ++ ' ' :: z)).length (a ++ ' ' :: z) = findall z
      rw [findallFuel_stable _ (a ++ ' ' :: z) (by simp), ih z hna]

theorem linesText_cons : ∀ (pt : List Char × List Char) (rest : List (List Char × List Char)),
    linesText (pt :: rest) = pt.1 ++ ' ' :: (pt.2 ++ tailText rest) := by
  intro pt rest
  cases rest with
  | nil => simp [linesText, tailText, lineText]
  | cons pt2 rest2 =>
    show lineText pt ++ '\n' :: linesText (pt2 :: rest2) = _
    simp [lineText, tailText]

theorem isPyWs_space : isPyWs ' ' = true := by decide

theorem not_space_of_not_ws : ∀ c : Char, isPyWs c = false → c ≠ ' ' ∧ c ≠ '\n' := by
  intro c h
  constructor
  · intro he; rw [he] at h; cases h
  · intro he; rw [he] at h; cases h

theorem filter_token_cons : ∀ (t : List Char) (X : List (List Char)), t ≠ [] →
    (t :: X).filter (fun n => !n.isEmpty) = t :: X.filter (fun n => !n.isEmpty) := by
  intro t X ht
  cases t with
  | nil => exact absurd rfl ht
  | cons c r => rfl

theorem filter_nil_cons : ∀ X : List (List Char),
    ([] :: X).filter (fun n => !n.isEmpty) = X.filter (fun n => !n.isEmpty) := by
  intro X
  rfl

theorem findall_tok_lines : ∀ (rest : List (List Char × List Char)) (t : List Char),
    t ≠ [] → (∀ c ∈ t, isPyWs c = false) →
    (∀ pt ∈ rest, GoodLine pt) →
    (findall (t ++ tailText rest)).filter (fun n => !n.isEmpty) =
      t :: rest.map (fun pt => pt.2) := by
  intro rest
  induction rest with
  | nil =>
    intro t ht hc _
    rw [tailText, List.append_nil,
      findall_token_end t ht (fun c hmem => (not_space_of_not_ws c (hc c hmem)).1),
      filter_token_cons t _ ht, filter_nil_cons]
    rfl
  | cons pt2 rest2 ih =>
    intro t ht hc hg
    obtain ⟨hp2, ht2, hc2⟩ := hg pt2 (by simp)
    have hz : linesText (pt2 :: rest2) = pt2.1 ++ ' ' :: (pt2.2 ++ tailText rest2) :=
      linesText_cons pt2 rest2
    have htw : '\n' ∉ (linesText (pt2 :: rest2)).takeWhile nonSpace := by
      rw [hz, takeWhile_append_stop nonSpace ' ' pt2.1 _ (by decide)]
      intro hmem
      exact hp2 (List.Sublist.mem hmem (List.takeWhile_sublist nonSpace))
    have hdw : (linesText (pt2 :: rest2)).dropWhile nonSpace ≠ [] := by
      rw [hz, dropWhile_append_stop nonSpace ' ' pt2.1 _ (by decide)]
      intro hcontra
      rcases List.append_eq_nil.mp hcontra with ⟨_, h2⟩
      cases h2
    rw [tailText,
      findall_token_nl t _ ht (fun c hmem => not_space_of_not_ws c (hc c hmem)) htw hdw,
      filter_token_cons t _ ht, filter_nil_cons, hz,
      findall_skip pt2.1 _ hp2, ih pt2.2 ht2 hc2 (fun y hy => hg y (by simp [hy]))]
    rfl

theorem findall_linesText : ∀ lines : List (List Char × List Char),
    (∀ pt ∈ lines, GoodLine pt) → lines ≠ [] →
    (findall (linesText lines)).filter (fun n => !n.isEmpty) =
      lines.map (fun pt => pt.2) := by
  intro lines hg hne
  cases lines with
  | nil => exact absurd rfl hne
  | cons pt rest =>
    obtain ⟨hp, htk, hcs⟩ := hg pt (by simp)
    rw [linesText_cons, findall_skip pt.1 _ hp,
      findall_tok_lines rest pt.2 htk hcs (fun y hy => hg y (by simp [hy]))]
    rfl

theorem pyRStrip_concat : ∀ (a : List Char) (d : Char), isPyWs d = false →
    ((a ++ [d]).reverse.dropWhile isPyWs).reverse = a ++ [d] := by
  intro a d h
  rw [List.reverse_append]
  show ((d :: a.reverse).dropWhile isPyWs).reverse = a ++ [d]
  rw [List.dropWhile_cons, if_neg (by simp [h]), List.reverse_cons, List.reverse_reverse]

theorem dropWhile_append_cases : ∀ (p : Char → Bool) (a b : List Char),
    (a ++ b).dropWhile p = a.dropWhile p ++ b ∨
      (a.dropWhile p = [] ∧ (a ++ b).dropWhile p = b.dropWhile p) := by
  intro p a b
  induction a with
  | nil => exact Or.inr ⟨rfl, rfl⟩
  | cons c a ih =>
    by_cases hc : p c = true
    · rw [List.cons_append, List.dropWhile_cons, if_pos hc, List.dropWhile_cons, if_pos hc]
      exact ih
    · rw [List.cons_append, List.dropWhile_cons, if_neg hc, List.dropWhile_cons, if_neg hc]
      exact Or.inl (by rw [List.cons_append])

theorem tok_tail_concat : ∀ (rest : List (List Char × List Char)) (t : List Char),
    t ≠ [] → (∀ c ∈ t, isPyWs c = false) →
    (∀ pt ∈ rest, GoodLine pt) →
    ∃ B d, t ++ tailText rest = B ++ [d] ∧ isPyWs d = false := by
  intro rest
  induction rest with
  | nil =>
    intro t ht hc _
    refine ⟨t.dropLast, t.getLast ht, ?_, hc _ (List.getLast_mem ht)⟩
    rw [tailText, List.append_nil, List.dropLast_append_getLast ht]
  | cons pt2 rest2 ih =>
    intro t ht hc hg
    obtain ⟨hp2, ht2, hc2⟩ := hg pt2 (by simp)
    obtain ⟨B, d, hBd, hd⟩ := ih pt2.2 ht2 hc2 (fun y hy => hg y (by simp [hy]))
    refine ⟨t ++ '\n' :: (pt2.1 ++ ' ' :: B), d, ?_, hd⟩
    rw [tailText, linesText_cons, hBd]
    simp

theorem pyStrip_linesText : ∀ (p1 t : List Char) (rest : List (List Char × List Char)),
    t ≠ [] → (∀ c ∈ t, isPyWs c = false) → (∀ pt ∈ rest, GoodLine pt) →
    pyStrip (p1 ++ ' ' :: (t ++ tailText rest)) =
        p1.dropWhile isPyWs ++ ' ' :: (t ++ tailText rest) ∨
      pyStrip (p1 ++ ' ' :: (t ++ tailText rest)) = t ++ tailText rest := by
  intro p1 t rest ht hc hg
  obtain ⟨B, d, hBd, hd⟩ := tok_tail_concat rest t ht hc hg
  unfold pyStrip
  rcases dropWhile_append_cases isPyWs p1 (' ' :: (t ++ tailText rest)) with hA | ⟨hA0, hB⟩
  · left
    rw [hA]
    have hshape : p1.dropWhile isPyWs ++ ' ' :: (t ++ tailText rest) =
        (p1.dropWhile isPyWs ++ ' ' :: B) ++ [d] := by
      rw [hBd]; simp
    rw [hshape, pyRStrip_concat _ d hd, ← hshape]
  · right
    rw [hB, List.dropWhile_cons, if_pos isPyWs_space]
    have hdt : (t ++ tailText rest).dropWhile isPyWs = t ++ tailText rest := by
      cases t with
      | nil => exact absurd rfl ht
      | cons c r =>
        rw [List.cons_append, List.dropWhile_cons, if_neg (by simp [hc c (by simp)])]
    rw [hdt, hBd, pyRStrip_concat _ d hd, ← hBd]

theorem parse_stripped_lines : ∀ lines : List (List Char × List Char),
    (∀ pt ∈ lines, GoodLine pt) →
    (findall (pyStrip (linesText lines))).filter (fun n => !n.isEmpty) =
      lines.map (fun pt => pt.2) := by
  intro lines hg
  cases lines with
  | nil => rfl
  | cons pt rest =>
    obtain ⟨hp, htk, hcs⟩ := hg pt (by simp)
    have hgr : ∀ y ∈ rest, GoodLine y := fun y hy => hg y (by simp [hy])
    rw [linesText_cons]
    rcases pyStrip_linesText pt.1 pt.2 rest htk hcs hgr with hA | hB
    · rw [hA, findall_skip _ _ (fun hmem =>
        hp (List.Sublist.mem hmem (List.dropWhile_sublist isPyWs))),
        findall_tok_lines rest pt.2 htk hcs hgr]
      rfl
    · rw [hB, findall_tok_lines rest pt.2 htk hcs hgr]
      rfl


/-- C1 (corrected).  The original claim fails when the whitespace before
the last column is not a space: the `[^ ]` class of the findall pattern
treats only the space character as a separator.  Amended claim: for
every input text that is a newline-join of lines, each of the form
prefix-space-token with a non-empty token free of whitespace
characters, and with no header-pattern occurrence anywhere in the text,
the parser extracts exactly the tokens, in original line order. -/
theorem parse_space_separated_lines : ∀ lines : List (List Char × List Char),
    (∀ pt ∈ lines, GoodLine pt) →
    (∀ p ∈ DOCKER_CONTAINER_PATTERN, ¬ p <:+: linesText lines) →
    parse (linesText lines) = lines.map (fun pt => pt.2) := by
  intro lines hg hno
  show (findall (pyStrip (reSubHeaders (linesText lines)))).filter (fun n => !n.isEmpty) = _
  rw [reSubHeaders_id _ hno]
  exact parse_stripped_lines lines hg

/-- Witness for the amended C1 at the two lines "x a" and "y b". -/
theorem parse_space_separated_lines_witness :
    parse (linesText [("x".data, "a".data), ("y".data, "b".data)]) =
      ["a".data, "b".data] :=
  parse_space_separated_lines [("x".data, "a".data), ("y".data, "b".data)]
    (by decide) (by decide)

/-- C1 counterexample.  The line "a TAB b" has the claimed form
prefix-whitespace-token with token "b", whose trailing run of
non-whitespace characters is "b"; the parser nevertheless returns the
whole line, because `[^ ]` matches the TAB. -/
theorem parse_tab_line_counterexample :
    parse "a\tb".data = ["a\tb".data] ∧ parse "a\tb".data ≠ ["b".data] := by
  constructor
  · decide
  · decide

/-- C2 (confirmed).  Text consisting only of header tokens and
whitespace characters (blank lines included) parses to the empty
sequence. -/
theorem parse_header_whitespace_empty : ∀ segs : List (List Char),
    (∀ x ∈ segs, x ∈ DOCKER_CONTAINER_PATTERN ∨ ∀ c ∈ x, isPyWs c = true) →
    parse segs.flatten = [] := by
  intro segs hseg
  show (findall (pyStrip (reSubHeaders segs.flatten))).filter (fun n => !n.isEmpty) = []
  rw [pyStrip_all_ws _ (reSubHeaders_segments segs hseg)]
  rfl

/-- Witness for C2 at a text of header tokens, blanks and a blank line. -/
theorem parse_header_whitespace_empty_witness :
    parse (["IMAGE".data, " ".data, "\n \t\n".data, "NAMES".data, "STATUS".data].flatten) = [] :=
  parse_header_whitespace_empty
    ["IMAGE".data, " ".data, "\n \t\n".data, "NAMES".data, "STATUS".data] (by decide)

/-- C3 (confirmed).  The two-line example of the spec parses to the
single identifier "my_pg". -/
theorem parse_example_listing :
    parse ("CONTAINER ID   IMAGE   COMMAND   CREATED   STATUS   PORTS   NAMES\nabc123   postgres   \"docker-entr...\"   2 hours ago   Up 2 hours   5432/tcp   my_pg").data =
      ["my_pg".data] := by
  decide

/-- C4 counterexample.  The input "x a\ny b" has parser output [a, b],
whose tokens contain no header token; re-injected as the text "a\nb"
(one token per line), the parser returns the single token containing
the embedded newline, not the original two tokens: the greedy `[^ ]*`
run crosses the newline because the final `$` also matches at the end
of the string. -/
theorem parse_reinjection_counterexample :
    parse "x a\ny b".data = ["a".data, "b".data] ∧
      parse "a\nb".data = ["a\nb".data] ∧
      parse "a\nb".data ≠ ["a".data, "b".data] := by
  refine ⟨by decide, by decide, by decide⟩

/-- C4 (corrected).  Re-parsing re-injected parser output is the
identity only for outputs of at most one token: a single re-injected
token free of whitespace characters and of header occurrences is
returned unchanged (and an empty output re-parses to an empty output),
while outputs of two or more tokens are merged across the separating
newlines, as the counterexample shows. -/
theorem parse_single_token_idempotent : ∀ t : List Char,
    (∀ c ∈ t, isPyWs c = false) →
    (∀ p ∈ DOCKER_CONTAINER_PATTERN, ¬ p <:+: t) →
    parse t = if t.isEmpty then [] else [t] := by
  intro t hc hno
  show (findall (pyStrip (reSubHeaders t))).filter (fun n => !n.isEmpty) = _
  rw [reSubHeaders_id _ hno]
  cases t with
  | nil => rfl
  | cons c r =>
    have hstrip : pyStrip (c :: r) = c :: r := by
      unfold pyStrip
      rw [List.dropWhile_cons, if_neg (by simp [hc c (by simp)])]
      have hcr : c :: r = (c :: r).dropLast ++ [(c :: r).getLast (by simp)] :=
        (List.dropLast_append_getLast (by simp)).symm
      rw [hcr, pyRStrip_concat _ _ (hc _ (List.getLast_mem (by simp)))]
    rw [hstrip,
      findall_token_end (c :: r) (by simp) (fun d hd => (not_space_of_not_ws d (hc d hd)).1)]
    rfl

/-- Witness for the amended C4 at the single token "my_pg". -/
theorem parse_single_token_idempotent_witness :
    parse "my_pg".data = ["my_pg".data] :=
  parse_single_token_idempotent "my_pg".data (by decide) (by decide)

/-- C10 (confirmed).  Header removal is an unanchored substring
substitution: a last column of the form "my" ++ header ++ "db" is
returned with the header substring deleted ("mydb"), not as written. -/
theorem parse_header_inside_name : ∀ p ∈ DOCKER_CONTAINER_PATTERN,
    parse ("x my".data ++ p ++ "db".data) = ["my".data ++ "db".data] ∧
      parse ("x my".data ++ p ++ "db".data) ≠ ["my".data ++ p ++ "db".data] := by
  intro p hp
  fin_cases hp <;> exact ⟨by decide, by decide⟩

/-- Witness for C10 at the header token IMAGE: the container name
"myIMAGEdb" is returned as "mydb". -/
theorem parse_header_inside_name_witness :
    parse ("x my".data ++ "IMAGE".data ++ "db".data) = ["my".data ++ "db".data] ∧
      parse ("x my".data ++ "IMAGE".data ++ "db".data) ≠
        ["my".data ++ "IMAGE".data ++ "db".data] :=
  parse_header_inside_name "IMAGE".data (by decide)

/-- C5 (confirmed).  The status prober is a total function of the single
daemon-info invocation outcome, with exactly the three-state mapping:
RUNNING exactly on exit code 0, NOT_RUNNING exactly on a non-zero exit
code, NOT_INSTALLED exactly when the executable cannot be located.  No
retry exists: the result is determined by the one outcome. -/
theorem get_docker_status_cases : ∀ r : SubprocessOutcome,
    (get_docker_status r = DockerState.RUNNING ↔ r = SubprocessOutcome.completed 0) ∧
    (get_docker_status r = DockerState.NOT_RUNNING ↔
      ∃ c, c ≠ 0 ∧ r = SubprocessOutcome.completed c) ∧
    (get_docker_status r = DockerState.NOT_INSTALLED ↔ r = SubprocessOutcome.fileNotFound) := by
  intro r
  cases r with
  | completed c =>
    by_cases hc : c = 0
    · subst hc
      refine ⟨by simp [get_docker_status], ?_, by simp [get_docker_status]⟩
      simp only [get_docker_status, if_pos rfl]
      constructor
      · intro h; cases h
      · rintro ⟨c, hc, he⟩
        injection he with he
        exact absurd he.symm hc
    · refine ⟨by simp [get_docker_status, hc], ?_, by simp [get_docker_status, hc]⟩
      simp only [get_docker_status, if_neg hc]
      exact ⟨fun _ => ⟨c, hc, rfl⟩, fun _ => by trivial⟩
  | fileNotFound =>
    refine ⟨by simp [get_docker_status], ?_, by simp [get_docker_status]⟩
    simp [get_docker_status]

/-- C6 (confirmed).  At the selection prompt, an input parsing to 0
cancels: the loop returns the cancelled outcome, and a run that has
reached the prompt then terminates with exit code 0 without invoking
the backup command.  An input parsing to n with 1 <= n <= length
returns the (n-1)-indexed element of the list. -/
theorem select_zero_cancels_in_range_selects :
    (∀ (containers : List (List Char)) (s : List Char) (rest : List (List Char)) (n : Int),
      pyInt s = some n →
      (n = 0 → select_container containers (s :: rest) = SelectOutcome.cancelled) ∧
      (1 ≤ n → n ≤ (containers.length : Int) →
        ∃ hlt : (n - 1).toNat < containers.length,
          select_container containers (s :: rest) =
            SelectOutcome.selected (containers.get ⟨(n - 1).toNat, hlt⟩))) ∧
    (∀ env : Env, ReachesPrompt env →
      select_container (psContainers env) env.inputs = SelectOutcome.cancelled →
      mainRun env = ProgResult.exited 0 false) := by
  constructor
  · intro containers s rest n hs
    constructor
    · intro hn
      subst hn
      simp only [select_container, hs]
      rw [if_pos (by norm_num : (0:Int) - 1 = -1)]
    · intro h1 h2
      have hlt : (n - 1).toNat < containers.length := by omega
      refine ⟨hlt, ?_⟩
      simp only [select_container, hs]
      rw [if_neg (by omega : ¬ n - 1 = -1), dif_pos (⟨by omega, by omega⟩ :
        0 ≤ n - 1 ∧ n - 1 < (containers.length : Int))]
  · intro env hrp hsel
    obtain ⟨h1, h2, h3⟩ := hrp
    simp only [mainRun, h1, h2, hsel]
    rw [if_neg (by simp : ¬ ((0:Int) ≠ 0)), if_neg (by rw [List.length_eq_zero]; exact h3)]

/-- Witness for C6: with the one container "pg", the input "0" cancels
and the input "1" selects "pg". -/
theorem select_zero_cancels_in_range_selects_witness :
    select_container ["pg".data] ["0".data] = SelectOutcome.cancelled :=
  (select_zero_cancels_in_range_selects.1 ["pg".data] "0".data [] 0 (by decide)).1 rfl

/-- C7 (confirmed).  An input that does not parse as an integer, or
parses to a number outside {0, ..., length}, neither terminates the
program nor returns a selection: the loop re-prompts on the remaining
input, and any finite number of such inputs may precede a decisive one
(there is no retry bound). -/
theorem select_invalid_inputs_loop : ∀ (containers : List (List Char))
    (bads rest : List (List Char)),
    (∀ s ∈ bads, pyInt s = none ∨
      ∃ n, pyInt s = some n ∧ n ≠ 0 ∧ ¬(1 ≤ n ∧ n ≤ (containers.length : Int))) →
    select_container containers (bads ++ rest) = select_container containers rest := by
  intro containers bads rest
  induction bads with
  | nil => intro _; rfl
  | cons s bads ih =>
    intro h
    have hrest := ih (fun y hy => h y (by simp [hy]))
    rcases h s (by simp) with hn | ⟨n, hsome, hn0, hrange⟩
    · rw [List.cons_append]
      simp only [select_container, hn]
      exact hrest
    · rw [List.cons_append]
      simp only [select_container, hsome]
      rw [if_neg (by omega : ¬ n - 1 = -1), dif_neg (by omega :
        ¬ (0 ≤ n - 1 ∧ n - 1 < (containers.length : Int)))]
      exact hrest

/-- Witness for C7: the non-numeric input "x" and the out-of-range
input "7" are both skipped before "1" selects. -/
theorem select_invalid_inputs_loop_witness :
    select_container ["pg".data] (["x".data, "7".data] ++ ["1".data]) =
      select_container ["pg".data] ["1".data] :=
  select_invalid_inputs_loop ["pg".data] ["x".data, "7".data] ["1".data] (by
    intro s hs
    rw [List.mem_cons, List.mem_singleton] at hs
    rcases hs with rfl | rfl
    · exact Or.inl (by decide)
    · exact Or.inr ⟨7, by decide, by decide, by decide⟩)

/-- C8 (confirmed).  The process exit code is 0 exactly on a successful
backup or a user cancellation, and 1 exactly on a fatal error of the
taxonomy: daemon not installed, daemon not running, listing-command
failure, empty container listing, or backup failure.  A run that
exhausts the modelled stdin has no exit code and falls in no case. -/
theorem main_exit_codes : ∀ env : Env,
    (mainExitCode env = some 0 ↔ SuccessfulBackup env ∨ UserCancelled env) ∧
    (mainExitCode env = some 1 ↔ FatalError env) := by
  intro env
  obtain ⟨info, ps, out, inputs, backup⟩ := env
  simp only [mainExitCode, mainRun, SuccessfulBackup, UserCancelled, FatalError,
    ReachesPrompt, psContainers]
  cases info with
  | fileNotFound => simp [get_docker_status]
  | completed c =>
    by_cases hc : c = 0
    · subst hc
      simp only [get_docker_status, if_pos rfl]
      cases ps with
      | fileNotFound => simp
      | completed d =>
        by_cases hd : d = 0
        · subst hd
          by_cases hlen : get_container_names (remove_docker_listing_headers out) = []
          · simp [hlen, List.length_eq_zero]
          · cases hsel : select_container
                (get_container_names (remove_docker_listing_headers out)) inputs with
            | noMoreInput => simp [hsel, hlen, List.length_eq_zero]
            | cancelled => simp [hsel, hlen, List.length_eq_zero]
            | selected name =>
              cases backup with
              | fileNotFound => simp [hsel, hlen, List.length_eq_zero]
              | completed b =>
                by_cases hb : b = 0
                · subst hb
                  simp [hsel, hlen, List.length_eq_zero]
                · simp [hsel, hlen, hb, List.length_eq_zero]
        · simp [get_docker_status, hd]
    · simp [get_docker_status, hc]
